import Mathlib

set_option linter.unusedSectionVars false

/-!
Shallow embedding of `rust-functional-datastructures`:
an immutable singly-linked stack (`CustomStack`, src/stack.rs) and an
unbalanced binary search tree usable as Set and Map (`Tree`, src/set.rs).
Shared-ownership references (`Arc`) carry no observable state beyond the
value they point to, so they are modelled by the values themselves; `u32`
indices and sizes are modelled by `Nat`.
-/

namespace FDS

/-! ### Tree (src/set.rs) -/

inductive Tree (K V : Type) where
  | Empty : Tree K V
  | Node (left : Tree K V) (key : K) (value : V) (right : Tree K V) : Tree K V
deriving DecidableEq

section TreePart

variable {K V T : Type} [LinearOrder K] [LinearOrder T]

namespace Tree

/-- `Map::empty_map` -/
def empty_map : Tree K V := .Empty

/-- `Set::empty` -/
def empty : Tree K V := .Empty

/-- `Tree::singleton` -/
def singleton (key : K) (value : V) : Tree K V := .Node .Empty key value .Empty

/-- `Map::bind` -/
def bind : Tree K V → K → V → Tree K V
  | .Empty, nk, nv => singleton nk nv
  | .Node l key value r, nk, nv =>
    if nk < key then .Node (bind l nk nv) key value r
    else if nk > key then .Node l key value (bind r nk nv)
    else .Node l nk nv r

/-- `Tree::lookup_with_candidate` -/
def lookup_with_candidate : Tree K V → K → K → V → Option V
  | .Empty, sk, ck, cv => if sk = ck then some cv else none
  | .Node l key value r, sk, ck, cv =>
    if sk < key then lookup_with_candidate l sk ck cv
    else lookup_with_candidate r sk key value

/-- `Map::lookup` -/
def lookup : Tree K V → K → Option V
  | .Empty, _ => none
  | .Node l key value r, sk => lookup_with_candidate (.Node l key value r) sk key value

/-- `Tree::try_insert_with_candidate` (Set view, `V = Unit`) -/
def try_insert_with_candidate : Tree T Unit → T → T → Option (Tree T Unit)
  | .Empty, nv, c => if nv = c then none else some (singleton nv ())
  | .Node l key _ r, nv, c =>
    if nv < key then
      (try_insert_with_candidate l nv c).map (fun nl => .Node nl key () r)
    else if nv > key then
      (try_insert_with_candidate r nv key).map (fun nr => .Node l key () nr)
    else none

/-- `Set::insert`: `unwrap_or_else(|| self.clone())` is modelled by `Option.getD`
with the receiver itself, since a clone is value-equal to the original. -/
def insert : Tree T Unit → T → Tree T Unit
  | .Empty, nv => singleton nv ()
  | .Node l key value r, nv =>
    (try_insert_with_candidate (.Node l key value r) nv key).getD (.Node l key value r)

/-- `Set::member` -/
def member (t : Tree T Unit) (sv : T) : Bool := (lookup t sv).isSome

/-- Modelled from the spec: the naive three-way-comparison BST search that
claim C1 compares the candidate-tracking `lookup` against. -/
def naive_lookup : Tree K V → K → Option V
  | .Empty, _ => none
  | .Node l key value r, sk =>
    if sk < key then naive_lookup l sk
    else if key < sk then naive_lookup r sk
    else some value

/-- All keys occurring in a tree, in-order. -/
def keysList : Tree K V → List K
  | .Empty => []
  | .Node l key _ r => keysList l ++ key :: keysList r

/-- Every key in the tree satisfies `p`. -/
def AllKeys (p : K → Prop) : Tree K V → Prop
  | .Empty => True
  | .Node l key _ r => p key ∧ AllKeys p l ∧ AllKeys p r

/-- The binary-search-tree invariant of spec section 3: at each node every key
on the left is smaller, every key on the right larger, recursively. -/
def BST : Tree K V → Prop
  | .Empty => True
  | .Node l key _ r =>
    AllKeys (fun x => x < key) l ∧ AllKeys (fun x => key < x) r ∧ BST l ∧ BST r

instance instDecidableAllKeys (p : K → Prop) [DecidablePred p] :
    ∀ t : Tree K V, Decidable (AllKeys p t)
  | .Empty => isTrue trivial
  | .Node l key _ r =>
    haveI := instDecidableAllKeys p l
    haveI := instDecidableAllKeys p r
    inferInstanceAs (Decidable (p key ∧ _ ∧ _))

instance instDecidableBST : ∀ t : Tree K V, Decidable (BST t)
  | .Empty => isTrue trivial
  | .Node l _key _ r =>
    haveI : Decidable (BST l) := instDecidableBST l
    haveI : Decidable (BST r) := instDecidableBST r
    inferInstanceAs (Decidable (_ ∧ _ ∧ _ ∧ _))

end Tree

/-- Trees reachable from `empty_map()` by `bind` operations (Map lifecycle). -/
inductive ReachableMap : Tree K V → Prop where
  | empty : ReachableMap .Empty
  | bind (t : Tree K V) (k : K) (v : V) : ReachableMap t → ReachableMap (t.bind k v)

/-- Trees reachable from `empty()`/`empty_map()` by `insert` and `bind`
operations (Set lifecycle, payload `Unit`). -/
inductive ReachableSet : Tree T Unit → Prop where
  | empty : ReachableSet .Empty
  | insert (t : Tree T Unit) (x : T) : ReachableSet t → ReachableSet (t.insert x)
  | bind (t : Tree T Unit) (k : T) (v : Unit) : ReachableSet t → ReachableSet (t.bind k v)

/-- Folding `insert` over a list of values: "a tree built from `empty()` by
inserts". -/
def insertAll (t : Tree T Unit) : List T → Tree T Unit
  | [] => t
  | x :: xs => insertAll (t.insert x) xs

end TreePart

/-! ### Stack (src/stack.rs) -/

section StackPart

variable {T : Type}

inductive StackError where
  | NoSuchElementException
  | IndexOutOfRange
deriving DecidableEq

inductive CustomStack (T : Type) where
  | Empty : CustomStack T
  | Cons (value : T) (tail : CustomStack T) : CustomStack T
deriving DecidableEq

namespace CustomStack

/-- `Stack::empty` -/
def empty : CustomStack T := .Empty

/-- `Stack::is_empty` -/
def is_empty : CustomStack T → Bool
  | .Empty => true
  | _ => false

/-- `Stack::cons` -/
def cons (s : CustomStack T) (value : T) : CustomStack T := .Cons value s

/-- `Stack::head` -/
def head : CustomStack T → Except StackError T
  | .Empty => .error .NoSuchElementException
  | .Cons v _ => .ok v

/-- `Stack::tail` (the `Arc<Self>` result is modelled by the stack value). -/
def tail : CustomStack T → Except StackError (CustomStack T)
  | .Empty => .error .NoSuchElementException
  | .Cons _ t => .ok t

/-- `Stack::update`; the `try!` macro propagating the tail's error is the
`.error e => .error e` arm. -/
def update : CustomStack T → Nat → T → Except StackError (CustomStack T)
  | .Empty, _, _ => .error .IndexOutOfRange
  | .Cons _ t, 0, nv => .ok (cons t nv)
  | .Cons v t, i + 1, nv =>
    match update t i nv with
    | .error e => .error e
    | .ok u => .ok (cons u v)

/-- `Stack::size` -/
def size : CustomStack T → Nat
  | .Empty => 0
  | .Cons _ t => 1 + size t

/-- `Stack::get` -/
def get : CustomStack T → Nat → Except StackError T
  | .Empty, _ => .error .IndexOutOfRange
  | .Cons v _, 0 => .ok v
  | .Cons _ t, i + 1 => get t i

/-- The suffix of a stack starting at index `i` (spec vocabulary for the
structural-sharing property of `update`). -/
def suffixFrom : Nat → CustomStack T → CustomStack T
  | 0, s => s
  | _ + 1, .Empty => .Empty
  | n + 1, .Cons _ t => suffixFrom n t

end CustomStack

/-! ### Stack lemmas -/

namespace CustomStack

theorem size_cons (s : CustomStack T) (x : T) : (s.cons x).size = 1 + s.size := rfl

theorem update_ok_of_lt (s : CustomStack T) :
    ∀ i v, i < s.size → ∃ r, s.update i v = .ok r := by
  induction s with
  | Empty => intro i v h; simp [size] at h
  | Cons a t ih =>
    intro i v h
    cases i with
    | zero => exact ⟨cons t v, rfl⟩
    | succ i =>
      have hi : i < t.size := by simp [size] at h; omega
      obtain ⟨u, hu⟩ := ih i v hi
      exact ⟨cons u a, by simp [update, hu]⟩

theorem update_err_of_ge (s : CustomStack T) :
    ∀ i v, s.size ≤ i → s.update i v = .error .IndexOutOfRange := by
  induction s with
  | Empty => intro i v _; rfl
  | Cons a t ih =>
    intro i v h
    cases i with
    | zero => simp [size] at h
    | succ i =>
      have : t.size ≤ i := by simp [size] at h; omega
      simp [update, ih i v this]

theorem size_update (s : CustomStack T) :
    ∀ i v r, s.update i v = .ok r → r.size = s.size := by
  induction s with
  | Empty => intro i v r h; simp [update] at h
  | Cons a t ih =>
    intro i v r h
    cases i with
    | zero =>
      simp [update] at h
      subst h; rfl
    | succ i =>
      simp only [update] at h
      cases hu : t.update i v with
      | error e => rw [hu] at h; simp at h
      | ok u =>
        rw [hu] at h
        simp at h
        subst h
        simp [cons, size, ih i v u hu]

theorem get_update_self (s : CustomStack T) :
    ∀ i v r, s.update i v = .ok r → r.get i = .ok v := by
  induction s with
  | Empty => intro i v r h; simp [update] at h
  | Cons a t ih =>
    intro i v r h
    cases i with
    | zero =>
      simp [update] at h
      subst h; rfl
    | succ i =>
      simp only [update] at h
      cases hu : t.update i v with
      | error e => rw [hu] at h; simp at h
      | ok u =>
        rw [hu] at h
        simp at h
        subst h
        simpa [cons, get] using ih i v u hu

theorem get_update_other (s : CustomStack T) :
    ∀ i v r j, s.update i v = .ok r → j ≠ i → r.get j = s.get j := by
  induction s with
  | Empty => intro i v r j h _; simp [update] at h
  | Cons a t ih =>
    intro i v r j h hne
    cases i with
    | zero =>
      simp [update] at h
      subst h
      cases j with
      | zero => exact absurd rfl hne
      | succ j => rfl
    | succ i =>
      simp only [update] at h
      cases hu : t.update i v with
      | error e => rw [hu] at h; simp at h
      | ok u =>
        rw [hu] at h
        simp at h
        subst h
        cases j with
        | zero => rfl
        | succ j =>
          have : j ≠ i := by omega
          simpa [cons, get] using ih i v u j hu this

theorem get_ok_of_lt (s : CustomStack T) :
    ∀ i, i < s.size → ∃ x, s.get i = .ok x := by
  induction s with
  | Empty => intro i h; simp [size] at h
  | Cons a t ih =>
    intro i h
    cases i with
    | zero => exact ⟨a, rfl⟩
    | succ i =>
      have : i < t.size := by simp [size] at h; omega
      obtain ⟨x, hx⟩ := ih i this
      exact ⟨x, by simpa [get] using hx⟩

theorem get_err_of_ge (s : CustomStack T) :
    ∀ i, s.size ≤ i → s.get i = .error .IndexOutOfRange := by
  induction s with
  | Empty => intro i _; rfl
  | Cons a t ih =>
    intro i h
    cases i with
    | zero => simp [size] at h
    | succ i =>
      have : t.size ≤ i := by simp [size] at h; omega
      simpa [get] using ih i this

theorem suffixFrom_update (s : CustomStack T) :
    ∀ i v r, s.update i v = .ok r → suffixFrom (i + 1) r = suffixFrom (i + 1) s := by
  induction s with
  | Empty => intro i v r h; simp [update] at h
  | Cons a t ih =>
    intro i v r h
    cases i with
    | zero =>
      simp [update] at h
      subst h; rfl
    | succ i =>
      simp only [update] at h
      cases hu : t.update i v with
      | error e => rw [hu] at h; simp at h
      | ok u =>
        rw [hu] at h
        simp at h
        subst h
        simpa [cons, suffixFrom] using ih i v u hu

end CustomStack

end StackPart

/-! ### Stack claims -/

/-- C3: for every stack `s`, index `i < size s` and value `v`, `update s i v`
succeeds, the result has the same size, holds `v` at index `i`, agrees with `s`
at every other valid index, and `s` itself (a pure value) is unaffected. -/
theorem claim_C3_update_functional_correctness {T : Type}
    (s : CustomStack T) (i : Nat) (v : T) (h : i < s.size) :
    ∃ r, s.update i v = .ok r ∧ r.size = s.size ∧ r.get i = .ok v ∧
      ∀ j, j < s.size → j ≠ i → r.get j = s.get j := by
  obtain ⟨r, hr⟩ := CustomStack.update_ok_of_lt s i v h
  exact ⟨r, hr, CustomStack.size_update s i v r hr,
    CustomStack.get_update_self s i v r hr,
    fun j _ hj => CustomStack.get_update_other s i v r j hr hj⟩

/-- Witness for C3 at the stack `[3, 2, 1]`, index 1, value 10. -/
theorem claim_C3_update_functional_correctness_witness :
    (1 < ((((CustomStack.empty : CustomStack ℕ).cons 1).cons 2).cons 3).size) ∧
    ∃ r, ((((CustomStack.empty : CustomStack ℕ).cons 1).cons 2).cons 3).update 1 10 = .ok r ∧
      r.size = ((((CustomStack.empty : CustomStack ℕ).cons 1).cons 2).cons 3).size ∧
      r.get 1 = .ok 10 ∧
      ∀ j, j < ((((CustomStack.empty : CustomStack ℕ).cons 1).cons 2).cons 3).size → j ≠ 1 →
        r.get j = ((((CustomStack.empty : CustomStack ℕ).cons 1).cons 2).cons 3).get j :=
  ⟨by decide,
   claim_C3_update_functional_correctness
     ((((CustomStack.empty : CustomStack ℕ).cons 1).cons 2).cons 3) 1 10 (by decide)⟩

/-- C7: `head`/`tail` fail with `NoSuchElementException` exactly on the empty
stack and succeed otherwise; `get`/`update` fail with `IndexOutOfRange` exactly
when the index reaches the size (via the recursive descent, with no separate
pre-check in the code) and succeed otherwise; all operations are total. -/
theorem claim_C7_error_conditions {T : Type} (s : CustomStack T) (i : Nat) (v : T) :
    (s.head = .error .NoSuchElementException ↔ s = .Empty) ∧
    (s.tail = .error .NoSuchElementException ↔ s = .Empty) ∧
    (s ≠ .Empty → (∃ x, s.head = .ok x) ∧ (∃ t, s.tail = .ok t)) ∧
    (s.get i = .error .IndexOutOfRange ↔ s.size ≤ i) ∧
    (s.update i v = .error .IndexOutOfRange ↔ s.size ≤ i) ∧
    (i < s.size → (∃ x, s.get i = .ok x) ∧ (∃ r, s.update i v = .ok r)) := by
  refine ⟨?_, ?_, ?_, ?_, ?_, ?_⟩
  · cases s <;> simp [CustomStack.head]
  · cases s <;> simp [CustomStack.tail]
  · intro hne
    cases s with
    | Empty => exact absurd rfl hne
    | Cons a t => exact ⟨⟨a, rfl⟩, ⟨t, rfl⟩⟩
  · constructor
    · intro herr
      by_contra hlt
      obtain ⟨x, hx⟩ := CustomStack.get_ok_of_lt s i (by omega)
      rw [hx] at herr
      exact Except.noConfusion herr
    · exact CustomStack.get_err_of_ge s i
  · constructor
    · intro herr
      by_contra hlt
      obtain ⟨r, hr⟩ := CustomStack.update_ok_of_lt s i v (by omega)
      rw [hr] at herr
      exact Except.noConfusion herr
    · exact CustomStack.update_err_of_ge s i v
  · intro hlt
    exact ⟨CustomStack.get_ok_of_lt s i hlt, CustomStack.update_ok_of_lt s i v hlt⟩

/-- Witness for C7 at the empty stack. -/
theorem claim_C7_error_conditions_witness :
    (CustomStack.empty : CustomStack ℕ).head = .error .NoSuchElementException ∧
    (CustomStack.empty : CustomStack ℕ).get 0 = .error .IndexOutOfRange :=
  ⟨(claim_C7_error_conditions (CustomStack.empty : CustomStack ℕ) 0 0).1.mpr rfl,
   (claim_C7_error_conditions (CustomStack.empty : CustomStack ℕ) 0 0).2.2.2.1.mpr
     (by decide)⟩

/-- C8: `update` follows the stated structural recursion — at index 0 it
produces a node holding the new value in front of the unchanged tail, at index
`i+1` it prepends the head onto the successful recursive update of the tail
(and propagates the tail's error) — and the result agrees with the original on
the whole suffix strictly after index `i`. -/
theorem claim_C8_update_structure {T : Type} (a v : T) (t : CustomStack T) (i : Nat) :
    ((CustomStack.Cons a t).update 0 v = .ok (t.cons v)) ∧
    (∀ u, t.update i v = .ok u → (CustomStack.Cons a t).update (i + 1) v = .ok (u.cons a)) ∧
    (∀ e, t.update i v = .error e → (CustomStack.Cons a t).update (i + 1) v = .error e) ∧
    (∀ s r : CustomStack T, s.update i v = .ok r →
      CustomStack.suffixFrom (i + 1) r = CustomStack.suffixFrom (i + 1) s) := by
  refine ⟨rfl, ?_, ?_, ?_⟩
  · intro u hu
    simp [CustomStack.update, hu]
  · intro e he
    simp [CustomStack.update, he]
  · intro s r hr
    exact CustomStack.suffixFrom_update s i v r hr

/-- Witness for C8 on the stack `[3, 2, 1]` at index 1. -/
theorem claim_C8_update_structure_witness :
    ((CustomStack.Cons 3 ((CustomStack.empty : CustomStack ℕ).cons 1)).update 0 10 =
      .ok (((CustomStack.empty : CustomStack ℕ).cons 1).cons 10)) ∧
    ((CustomStack.Cons 3 (((CustomStack.empty : CustomStack ℕ).cons 1).cons 2)).update 1 10 =
      .ok ((((CustomStack.empty : CustomStack ℕ).cons 1).cons 10).cons 3)) :=
  ⟨(claim_C8_update_structure 3 10 ((CustomStack.empty : CustomStack ℕ).cons 1) 0).1,
   (claim_C8_update_structure 3 10 (((CustomStack.empty : CustomStack ℕ).cons 1).cons 2) 0).2.1
     (((CustomStack.empty : CustomStack ℕ).cons 1).cons 10) rfl⟩

/-- C9: `cons` then `head` returns the pushed value; `cons` then `tail`
returns the original stack. -/
theorem claim_C9_cons_head_tail {T : Type} (s : CustomStack T) (x : T) :
    (s.cons x).head = .ok x ∧ (s.cons x).tail = .ok s :=
  ⟨rfl, rfl⟩

/-- C10: `is_empty` holds exactly on the `Empty` value, which is exactly when
`size` is 0; `cons` never yields an empty stack; and on a non-empty stack both
`head` and `tail` succeed. -/
theorem claim_C10_is_empty_size {T : Type} (s : CustomStack T) (x : T) :
    (s.is_empty = true ↔ s = .Empty) ∧
    (s = .Empty ↔ s.size = 0) ∧
    ((s.cons x).is_empty = false) ∧
    (s.is_empty = false → (∃ v, s.head = .ok v) ∧ (∃ t, s.tail = .ok t)) := by
  refine ⟨?_, ?_, rfl, ?_⟩
  · cases s <;> simp [CustomStack.is_empty]
  · cases s <;> simp [CustomStack.size]
  · intro hne
    cases s with
    | Empty => simp [CustomStack.is_empty] at hne
    | Cons a t => exact ⟨⟨a, rfl⟩, ⟨t, rfl⟩⟩

/-- Witness for C10 at the one-element stack `[4]`. -/
theorem claim_C10_is_empty_size_witness :
    ((CustomStack.empty : CustomStack ℕ).cons 4).is_empty = false ∧
    (∃ v, ((CustomStack.empty : CustomStack ℕ).cons 4).head = .ok v) :=
  ⟨(claim_C10_is_empty_size ((CustomStack.empty : CustomStack ℕ).cons 4) 0).2.2.1,
   ((claim_C10_is_empty_size ((CustomStack.empty : CustomStack ℕ).cons 4) 0).2.2.2 rfl).1⟩

/-! ### Tree lemmas -/

section TreeLemmas

variable {K V T : Type} [LinearOrder K] [LinearOrder T]

namespace Tree

theorem allKeys_iff (p : K → Prop) :
    ∀ t : Tree K V, AllKeys p t ↔ ∀ k ∈ keysList t, p k := by
  intro t
  induction t with
  | Empty => simp [AllKeys, keysList]
  | Node l key v r ihl ihr =>
    simp only [AllKeys, keysList, ihl, ihr, List.mem_append, List.mem_cons]
    constructor
    · rintro ⟨hk, hl, hr⟩ k (h | h | h)
      · exact hl k h
      · exact h ▸ hk
      · exact hr k h
    · intro h
      exact ⟨h key (Or.inr (Or.inl rfl)),
        fun k hk => h k (Or.inl hk),
        fun k hk => h k (Or.inr (Or.inr hk))⟩

theorem mem_keysList_node (k : K) (l r : Tree K V) (key : K) (v : V) :
    k ∈ keysList (.Node l key v r) ↔ k ∈ keysList l ∨ k = key ∨ k ∈ keysList r := by
  simp [keysList]

theorem naive_none_of_all_gt :
    ∀ t : Tree K V, ∀ sk : K, (∀ k ∈ keysList t, sk < k) → naive_lookup t sk = none := by
  intro t
  induction t with
  | Empty => intro sk _; rfl
  | Node l key v r ihl ihr =>
    intro sk h
    have hkey : sk < key := h key (by simp [mem_keysList_node])
    have : naive_lookup (.Node l key v r) sk = naive_lookup l sk := by
      simp [naive_lookup, hkey]
    rw [this]
    exact ihl sk (fun k hk => h k (by simp [mem_keysList_node, hk]))

theorem mem_of_naive_some :
    ∀ t : Tree K V, ∀ sk : K, ∀ w : V, naive_lookup t sk = some w → sk ∈ keysList t := by
  intro t
  induction t with
  | Empty => intro sk w h; simp [naive_lookup] at h
  | Node l key v r ihl ihr =>
    intro sk w h
    rcases lt_trichotomy sk key with hc | hc | hc
    · rw [show naive_lookup (.Node l key v r) sk = naive_lookup l sk from by
        simp [naive_lookup, hc]] at h
      exact (mem_keysList_node sk l r key v).mpr (Or.inl (ihl sk w h))
    · exact (mem_keysList_node sk l r key v).mpr (Or.inr (Or.inl hc))
    · rw [show naive_lookup (.Node l key v r) sk = naive_lookup r sk from by
        simp [naive_lookup, hc, asymm hc]] at h
      exact (mem_keysList_node sk l r key v).mpr (Or.inr (Or.inr (ihr sk w h)))

theorem naive_some_of_mem :
    ∀ t : Tree K V, ∀ sk : K, BST t → sk ∈ keysList t → ∃ w, naive_lookup t sk = some w := by
  intro t
  induction t with
  | Empty => intro sk _ h; simp [keysList] at h
  | Node l key v r ihl ihr =>
    intro sk hbst hmem
    obtain ⟨hl, hr, hbl, hbr⟩ := hbst
    rcases (mem_keysList_node sk l r key v).mp hmem with h | h | h
    · have hlt : sk < key := ((allKeys_iff _ l).mp hl) sk h
      rw [show naive_lookup (.Node l key v r) sk = naive_lookup l sk from by
        simp [naive_lookup, hlt]]
      exact ihl sk hbl h
    · exact ⟨v, by simp [naive_lookup, h, lt_irrefl]⟩
    · have hgt : key < sk := ((allKeys_iff _ r).mp hr) sk h
      rw [show naive_lookup (.Node l key v r) sk = naive_lookup r sk from by
        simp [naive_lookup, hgt, asymm hgt]]
      exact ihr sk hbr h

/-- Candidate-tracking search agrees with the naive search on BST subtrees, as
long as a candidate equal to the search key can only arise for a key present in
the subtree or strictly below every key of the subtree. -/
theorem lookup_with_candidate_eq :
    ∀ (t : Tree K V) (sk ck : K) (cv : V), BST t →
      (sk = ck → sk ∈ keysList t ∨ ∀ k ∈ keysList t, sk < k) →
      lookup_with_candidate t sk ck cv =
        match naive_lookup t sk with
        | some w => some w
        | none => if sk = ck then some cv else none := by
  intro t
  induction t with
  | Empty =>
    intro sk ck cv _ _
    simp only [lookup_with_candidate, naive_lookup]
  | Node l key v r ihl ihr =>
    intro sk ck cv hbst hck
    obtain ⟨hl, hr, hbl, hbr⟩ := hbst
    rcases lt_trichotomy sk key with h | h | h
    · rw [show lookup_with_candidate (.Node l key v r) sk ck cv =
            lookup_with_candidate l sk ck cv from by simp [lookup_with_candidate, h]]
      rw [show naive_lookup (.Node l key v r) sk = naive_lookup l sk from by
        simp [naive_lookup, h]]
      apply ihl sk ck cv hbl
      intro he
      rcases hck he with hmem | hgt
      · rcases (mem_keysList_node sk l r key v).mp hmem with hm | hm | hm
        · exact Or.inl hm
        · exact absurd hm h.ne
        · have : key < sk := ((allKeys_iff _ r).mp hr) sk hm
          exact absurd this (asymm h)
      · exact Or.inr fun k hk =>
          hgt k ((mem_keysList_node k l r key v).mpr (Or.inl hk))
    · -- search key equals this node's key: descend right carrying it as candidate
      rw [show lookup_with_candidate (.Node l key v r) sk ck cv =
            lookup_with_candidate r sk key v from by
        simp [lookup_with_candidate, h, lt_irrefl]]
      rw [show naive_lookup (.Node l key v r) sk = some v from by
        simp [naive_lookup, h, lt_irrefl]]
      have hgt : ∀ k ∈ keysList r, sk < k := fun k hk =>
        h ▸ ((allKeys_iff _ r).mp hr) k hk
      rw [ihr sk key v hbr (fun _ => Or.inr hgt)]
      rw [naive_none_of_all_gt r sk hgt]
      simp [h]
    · rw [show lookup_with_candidate (.Node l key v r) sk ck cv =
            lookup_with_candidate r sk key v from by
        simp [lookup_with_candidate, asymm h]]
      rw [show naive_lookup (.Node l key v r) sk = naive_lookup r sk from by
        simp [naive_lookup, h, asymm h]]
      rw [ihr sk key v hbr (fun he => absurd he.symm h.ne)]
      cases hn : naive_lookup r sk with
      | some w => simp
      | none =>
        have hskck : sk ≠ ck := by
          intro he
          rcases hck he with hmem | hgt
          · rcases (mem_keysList_node sk l r key v).mp hmem with hm | hm | hm
            · have : sk < key := ((allKeys_iff _ l).mp hl) sk hm
              exact absurd this (asymm h)
            · exact absurd hm.symm h.ne
            · obtain ⟨w, hw⟩ := naive_some_of_mem r sk hbr hm
              rw [hw] at hn
              exact Option.noConfusion hn
          · exact absurd (hgt key ((mem_keysList_node key l r key v).mpr
              (Or.inr (Or.inl rfl)))) (asymm h)
        simp [h.ne', hskck]

/-- On every BST the candidate-tracking `lookup` returns exactly the naive
three-way-comparison result. -/
theorem lookup_eq_naive (t : Tree K V) (sk : K) (hbst : BST t) :
    lookup t sk = naive_lookup t sk := by
  cases t with
  | Empty => rfl
  | Node l key v r =>
    rw [show lookup (.Node l key v r) sk =
          lookup_with_candidate (.Node l key v r) sk key v from rfl]
    rw [lookup_with_candidate_eq (.Node l key v r) sk key v hbst
      (fun he => Or.inl ((mem_keysList_node sk l r key v).mpr (Or.inr (Or.inl he))))]
    cases hn : naive_lookup (.Node l key v r) sk with
    | some w => simp
    | none =>
      have : sk ≠ key := by
        intro he
        rw [show naive_lookup (.Node l key v r) sk = some v from by
          simp [naive_lookup, he, lt_irrefl]] at hn
        exact Option.noConfusion hn
      simp [this]

theorem allKeys_bind (p : K → Prop) :
    ∀ t : Tree K V, ∀ (nk : K) (nv : V), AllKeys p t → p nk → AllKeys p (bind t nk nv) := by
  intro t
  induction t with
  | Empty =>
    intro nk nv _ hp
    exact ⟨hp, trivial, trivial⟩
  | Node l key v r ihl ihr =>
    intro nk nv hall hp
    obtain ⟨hk, hl, hr⟩ := hall
    rcases lt_trichotomy nk key with h | h | h
    · rw [show bind (.Node l key v r) nk nv = .Node (bind l nk nv) key v r from by
        simp [bind, h]]
      exact ⟨hk, ihl nk nv hl hp, hr⟩
    · rw [show bind (.Node l key v r) nk nv = .Node l nk nv r from by
        simp [bind, h, lt_irrefl]]
      exact ⟨hp, hl, hr⟩
    · rw [show bind (.Node l key v r) nk nv = .Node l key v (bind r nk nv) from by
        simp [bind, h, asymm h]]
      exact ⟨hk, hl, ihr nk nv hr hp⟩

theorem bst_bind : ∀ t : Tree K V, ∀ (nk : K) (nv : V), BST t → BST (bind t nk nv) := by
  intro t
  induction t with
  | Empty =>
    intro nk nv _
    exact ⟨trivial, trivial, trivial, trivial⟩
  | Node l key v r ihl ihr =>
    intro nk nv hbst
    obtain ⟨hl, hr, hbl, hbr⟩ := hbst
    rcases lt_trichotomy nk key with h | h | h
    · rw [show bind (.Node l key v r) nk nv = .Node (bind l nk nv) key v r from by
        simp [bind, h]]
      exact ⟨allKeys_bind _ l nk nv hl h, hr, ihl nk nv hbl, hbr⟩
    · rw [show bind (.Node l key v r) nk nv = .Node l nk nv r from by
        simp [bind, h, lt_irrefl]]
      exact ⟨h ▸ hl, h ▸ hr, hbl, hbr⟩
    · rw [show bind (.Node l key v r) nk nv = .Node l key v (bind r nk nv) from by
        simp [bind, h, asymm h]]
      exact ⟨hl, allKeys_bind _ r nk nv hr h, hbl, ihr nk nv hbr⟩

theorem naive_bind_self :
    ∀ t : Tree K V, ∀ (nk : K) (nv : V), naive_lookup (bind t nk nv) nk = some nv := by
  intro t
  induction t with
  | Empty => intro nk nv; simp [bind, singleton, naive_lookup, lt_irrefl]
  | Node l key v r ihl ihr =>
    intro nk nv
    rcases lt_trichotomy nk key with h | h | h
    · rw [show bind (.Node l key v r) nk nv = .Node (bind l nk nv) key v r from by
        simp [bind, h]]
      simp [naive_lookup, h, ihl]
    · rw [show bind (.Node l key v r) nk nv = .Node l nk nv r from by
        simp [bind, h, lt_irrefl]]
      simp [naive_lookup, lt_irrefl]
    · rw [show bind (.Node l key v r) nk nv = .Node l key v (bind r nk nv) from by
        simp [bind, h, asymm h]]
      simp [naive_lookup, h, asymm h, ihr]

theorem naive_bind_other :
    ∀ t : Tree K V, ∀ (nk : K) (nv : V) (q : K), q ≠ nk →
      naive_lookup (bind t nk nv) q = naive_lookup t q := by
  intro t
  induction t with
  | Empty =>
    intro nk nv q hne
    rcases lt_trichotomy q nk with h | h | h
    · simp [bind, singleton, naive_lookup, h]
    · exact absurd h hne
    · simp [bind, singleton, naive_lookup, h, asymm h]
  | Node l key v r ihl ihr =>
    intro nk nv q hne
    rcases lt_trichotomy nk key with h | h | h
    · rw [show bind (.Node l key v r) nk nv = .Node (bind l nk nv) key v r from by
        simp [bind, h]]
      rcases lt_trichotomy q key with hq | hq | hq
      · simp [naive_lookup, hq, ihl nk nv q hne]
      · simp [naive_lookup, hq, lt_irrefl]
      · simp [naive_lookup, hq, asymm hq]
    · rw [show bind (.Node l key v r) nk nv = .Node l nk nv r from by
        simp [bind, h, lt_irrefl]]
      subst h
      rcases lt_trichotomy q nk with hq | hq | hq
      · simp [naive_lookup, hq]
      · exact absurd hq hne
      · simp [naive_lookup, hq, asymm hq]
    · rw [show bind (.Node l key v r) nk nv = .Node l key v (bind r nk nv) from by
        simp [bind, h, asymm h]]
      rcases lt_trichotomy q key with hq | hq | hq
      · simp [naive_lookup, hq]
      · simp [naive_lookup, hq, lt_irrefl]
      · simp [naive_lookup, hq, asymm hq, ihr nk nv q hne]

theorem allKeys_tiwc (p : T → Prop) :
    ∀ t : Tree T Unit, ∀ (x c : T) (u : Tree T Unit), AllKeys p t → p x →
      try_insert_with_candidate t x c = some u → AllKeys p u := by
  intro t
  induction t with
  | Empty =>
    intro x c u _ hp h
    by_cases hxc : x = c
    · simp [try_insert_with_candidate, hxc] at h
    · simp [try_insert_with_candidate, hxc] at h
      exact h ▸ ⟨hp, trivial, trivial⟩
  | Node l key v r ihl ihr =>
    intro x c u hall hp h
    obtain ⟨hk, hl, hr⟩ := hall
    rcases lt_trichotomy x key with hc | hc | hc
    · rw [show try_insert_with_candidate (.Node l key v r) x c =
            (try_insert_with_candidate l x c).map (fun nl => .Node nl key () r) from by
        simp [try_insert_with_candidate, hc]] at h
      cases hw : try_insert_with_candidate l x c with
      | none => rw [hw] at h; simp at h
      | some nl =>
        rw [hw] at h
        simp at h
        exact h ▸ ⟨hk, ihl x c nl hl hp hw, hr⟩
    · simp [try_insert_with_candidate, hc, lt_irrefl] at h
    · rw [show try_insert_with_candidate (.Node l key v r) x c =
            (try_insert_with_candidate r x key).map (fun nr => .Node l key () nr) from by
        simp [try_insert_with_candidate, hc, asymm hc]] at h
      cases hw : try_insert_with_candidate r x key with
      | none => rw [hw] at h; simp at h
      | some nr =>
        rw [hw] at h
        simp at h
        exact h ▸ ⟨hk, hl, ihr x key nr hr hp hw⟩

theorem bst_tiwc :
    ∀ t : Tree T Unit, ∀ (x c : T) (u : Tree T Unit), BST t →
      try_insert_with_candidate t x c = some u → BST u := by
  intro t
  induction t with
  | Empty =>
    intro x c u _ h
    by_cases hxc : x = c
    · simp [try_insert_with_candidate, hxc] at h
    · simp [try_insert_with_candidate, hxc] at h
      exact h ▸ ⟨trivial, trivial, trivial, trivial⟩
  | Node l key v r ihl ihr =>
    intro x c u hbst h
    obtain ⟨hl, hr, hbl, hbr⟩ := hbst
    rcases lt_trichotomy x key with hc | hc | hc
    · rw [show try_insert_with_candidate (.Node l key v r) x c =
            (try_insert_with_candidate l x c).map (fun nl => .Node nl key () r) from by
        simp [try_insert_with_candidate, hc]] at h
      cases hw : try_insert_with_candidate l x c with
      | none => rw [hw] at h; simp at h
      | some nl =>
        rw [hw] at h
        simp at h
        exact h ▸ ⟨allKeys_tiwc _ l x c nl hl hc hw, hr, ihl x c nl hbl hw, hbr⟩
    · simp [try_insert_with_candidate, hc, lt_irrefl] at h
    · rw [show try_insert_with_candidate (.Node l key v r) x c =
            (try_insert_with_candidate r x key).map (fun nr => .Node l key () nr) from by
        simp [try_insert_with_candidate, hc, asymm hc]] at h
      cases hw : try_insert_with_candidate r x key with
      | none => rw [hw] at h; simp at h
      | some nr =>
        rw [hw] at h
        simp at h
        exact h ▸ ⟨hl, allKeys_tiwc _ r x key nr hr hc hw, hbl, ihr x key nr hbr hw⟩

theorem bst_insert (t : Tree T Unit) (x : T) (hbst : BST t) : BST (insert t x) := by
  cases t with
  | Empty => exact ⟨trivial, trivial, trivial, trivial⟩
  | Node l key v r =>
    rw [show insert (.Node l key v r) x =
          (try_insert_with_candidate (.Node l key v r) x key).getD (.Node l key v r) from rfl]
    cases hw : try_insert_with_candidate (.Node l key v r) x key with
    | none => exact hbst
    | some u => exact bst_tiwc (.Node l key v r) x key u hbst hw

theorem keys_tiwc_self :
    ∀ t : Tree T Unit, ∀ (x c : T) (u : Tree T Unit),
      try_insert_with_candidate t x c = some u → x ∈ keysList u := by
  intro t
  induction t with
  | Empty =>
    intro x c u h
    by_cases hxc : x = c
    · simp [try_insert_with_candidate, hxc] at h
    · simp [try_insert_with_candidate, hxc] at h
      simp [← h, singleton, keysList]
  | Node l key v r ihl ihr =>
    intro x c u h
    rcases lt_trichotomy x key with hc | hc | hc
    · rw [show try_insert_with_candidate (.Node l key v r) x c =
            (try_insert_with_candidate l x c).map (fun nl => .Node nl key () r) from by
        simp [try_insert_with_candidate, hc]] at h
      cases hw : try_insert_with_candidate l x c with
      | none => rw [hw] at h; simp at h
      | some nl =>
        rw [hw] at h
        simp at h
        exact h ▸ (mem_keysList_node x nl r key ()).mpr (Or.inl (ihl x c nl hw))
    · simp [try_insert_with_candidate, hc, lt_irrefl] at h
    · rw [show try_insert_with_candidate (.Node l key v r) x c =
            (try_insert_with_candidate r x key).map (fun nr => .Node l key () nr) from by
        simp [try_insert_with_candidate, hc, asymm hc]] at h
      cases hw : try_insert_with_candidate r x key with
      | none => rw [hw] at h; simp at h
      | some nr =>
        rw [hw] at h
        simp at h
        exact h ▸ (mem_keysList_node x l nr key ()).mpr (Or.inr (Or.inr (ihr x key nr hw)))

theorem keysList_tiwc_subset :
    ∀ t : Tree T Unit, ∀ (x c : T) (u : Tree T Unit),
      try_insert_with_candidate t x c = some u →
      ∀ k ∈ keysList u, k ∈ keysList t ∨ k = x := by
  intro t
  induction t with
  | Empty =>
    intro x c u h k hk
    by_cases hxc : x = c
    · simp [try_insert_with_candidate, hxc] at h
    · simp [try_insert_with_candidate, hxc] at h
      rw [← h] at hk
      simp [singleton, keysList] at hk
      exact Or.inr hk
  | Node l key v r ihl ihr =>
    intro x c u h k hk
    rcases lt_trichotomy x key with hc | hc | hc
    · rw [show try_insert_with_candidate (.Node l key v r) x c =
            (try_insert_with_candidate l x c).map (fun nl => .Node nl key () r) from by
        simp [try_insert_with_candidate, hc]] at h
      cases hw : try_insert_with_candidate l x c with
      | none => rw [hw] at h; simp at h
      | some nl =>
        rw [hw] at h
        simp at h
        rw [← h] at hk
        rcases (mem_keysList_node k nl r key ()).mp hk with hm | hm | hm
        · rcases ihl x c nl hw k hm with hm' | hm'
          · exact Or.inl ((mem_keysList_node k l r key v).mpr (Or.inl hm'))
          · exact Or.inr hm'
        · exact Or.inl ((mem_keysList_node k l r key v).mpr (Or.inr (Or.inl hm)))
        · exact Or.inl ((mem_keysList_node k l r key v).mpr (Or.inr (Or.inr hm)))
    · simp [try_insert_with_candidate, hc, lt_irrefl] at h
    · rw [show try_insert_with_candidate (.Node l key v r) x c =
            (try_insert_with_candidate r x key).map (fun nr => .Node l key () nr) from by
        simp [try_insert_with_candidate, hc, asymm hc]] at h
      cases hw : try_insert_with_candidate r x key with
      | none => rw [hw] at h; simp at h
      | some nr =>
        rw [hw] at h
        simp at h
        rw [← h] at hk
        rcases (mem_keysList_node k l nr key ()).mp hk with hm | hm | hm
        · exact Or.inl ((mem_keysList_node k l r key v).mpr (Or.inl hm))
        · exact Or.inl ((mem_keysList_node k l r key v).mpr (Or.inr (Or.inl hm)))
        · rcases ihr x key nr hw k hm with hm' | hm'
          · exact Or.inl ((mem_keysList_node k l r key v).mpr (Or.inr (Or.inr hm')))
          · exact Or.inr hm'

theorem tiwc_none_mem :
    ∀ t : Tree T Unit, ∀ x c : T, BST t →
      (x = c → x ∈ keysList t ∨ ∀ k ∈ keysList t, x < k) →
      try_insert_with_candidate t x c = none → x ∈ keysList t ∨ x = c := by
  intro t
  induction t with
  | Empty =>
    intro x c _ _ h
    by_cases hxc : x = c
    · exact Or.inr hxc
    · simp [try_insert_with_candidate, hxc] at h
  | Node l key v r ihl ihr =>
    intro x c hbst hck h
    obtain ⟨hl, hr, hbl, hbr⟩ := hbst
    rcases lt_trichotomy x key with hc | hc | hc
    · rw [show try_insert_with_candidate (.Node l key v r) x c =
            (try_insert_with_candidate l x c).map (fun nl => .Node nl key () r) from by
        simp [try_insert_with_candidate, hc]] at h
      have hw : try_insert_with_candidate l x c = none := by
        cases hw : try_insert_with_candidate l x c with
        | none => rfl
        | some nl => rw [hw] at h; simp at h
      have hckl : x = c → x ∈ keysList l ∨ ∀ k ∈ keysList l, x < k := by
        intro he
        rcases hck he with hmem | hgt
        · rcases (mem_keysList_node x l r key v).mp hmem with hm | hm | hm
          · exact Or.inl hm
          · exact absurd hm hc.ne
          · exact absurd (((allKeys_iff _ r).mp hr) x hm) (asymm hc)
        · exact Or.inr fun k hk => hgt k ((mem_keysList_node k l r key v).mpr (Or.inl hk))
      rcases ihl x c hbl hckl hw with hm | hm
      · exact Or.inl ((mem_keysList_node x l r key v).mpr (Or.inl hm))
      · exact Or.inr hm
    · exact Or.inl ((mem_keysList_node x l r key v).mpr (Or.inr (Or.inl hc)))
    · rw [show try_insert_with_candidate (.Node l key v r) x c =
            (try_insert_with_candidate r x key).map (fun nr => .Node l key () nr) from by
        simp [try_insert_with_candidate, hc, asymm hc]] at h
      have hw : try_insert_with_candidate r x key = none := by
        cases hw : try_insert_with_candidate r x key with
        | none => rfl
        | some nr => rw [hw] at h; simp at h
      rcases ihr x key hbr (fun he => absurd he.symm hc.ne) hw with hm | hm
      · exact Or.inl ((mem_keysList_node x l r key v).mpr (Or.inr (Or.inr hm)))
      · exact absurd hm.symm hc.ne

theorem tiwc_none_of_lwc_some :
    ∀ t : Tree T Unit, ∀ (x ck : T) (cv : Unit),
      (lookup_with_candidate t x ck cv).isSome = true →
      try_insert_with_candidate t x ck = none := by
  intro t
  induction t with
  | Empty =>
    intro x ck cv h
    by_cases hxc : x = ck
    · simp [try_insert_with_candidate, hxc]
    · simp [lookup_with_candidate, hxc] at h
  | Node l key v r ihl ihr =>
    intro x ck cv h
    rcases lt_trichotomy x key with hc | hc | hc
    · rw [show lookup_with_candidate (.Node l key v r) x ck cv =
            lookup_with_candidate l x ck cv from by simp [lookup_with_candidate, hc]] at h
      simp [try_insert_with_candidate, hc, ihl x ck cv h]
    · simp [try_insert_with_candidate, hc, lt_irrefl]
    · rw [show lookup_with_candidate (.Node l key v r) x ck cv =
            lookup_with_candidate r x key v from by
        simp [lookup_with_candidate, asymm hc]] at h
      simp [try_insert_with_candidate, hc, asymm hc, ihr x key v h]

theorem tiwc_after_tiwc :
    ∀ t : Tree T Unit, ∀ (x c : T) (u : Tree T Unit),
      try_insert_with_candidate t x c = some u →
      try_insert_with_candidate u x c = none := by
  intro t
  induction t with
  | Empty =>
    intro x c u h
    by_cases hxc : x = c
    · simp [try_insert_with_candidate, hxc] at h
    · simp [try_insert_with_candidate, hxc] at h
      rw [← h]
      simp [singleton, try_insert_with_candidate, lt_irrefl]
  | Node l key v r ihl ihr =>
    intro x c u h
    rcases lt_trichotomy x key with hc | hc | hc
    · rw [show try_insert_with_candidate (.Node l key v r) x c =
            (try_insert_with_candidate l x c).map (fun nl => .Node nl key () r) from by
        simp [try_insert_with_candidate, hc]] at h
      cases hw : try_insert_with_candidate l x c with
      | none => rw [hw] at h; simp at h
      | some nl =>
        rw [hw] at h
        simp at h
        rw [← h]
        simp [try_insert_with_candidate, hc, ihl x c nl hw]
    · simp [try_insert_with_candidate, hc, lt_irrefl] at h
    · rw [show try_insert_with_candidate (.Node l key v r) x c =
            (try_insert_with_candidate r x key).map (fun nr => .Node l key () nr) from by
        simp [try_insert_with_candidate, hc, asymm hc]] at h
      cases hw : try_insert_with_candidate r x key with
      | none => rw [hw] at h; simp at h
      | some nr =>
        rw [hw] at h
        simp at h
        rw [← h]
        simp [try_insert_with_candidate, hc, asymm hc, ihr x key nr hw]

theorem insert_eq_of_member (t : Tree T Unit) (x : T) (h : member t x = true) :
    insert t x = t := by
  cases t with
  | Empty => simp [member, lookup] at h
  | Node l key v r =>
    have hlwc : (lookup_with_candidate (.Node l key v r) x key v).isSome = true := by
      simpa [member, lookup] using h
    have hnone := tiwc_none_of_lwc_some (.Node l key v r) x key v hlwc
    simp [insert, hnone]

theorem member_insert_self (t : Tree T Unit) (x : T) (hbst : BST t) :
    member (insert t x) x = true := by
  have hbst' : BST (insert t x) := bst_insert t x hbst
  have hmem : x ∈ keysList (insert t x) := by
    cases t with
    | Empty => simp [insert, singleton, keysList]
    | Node l key v r =>
      rw [show insert (.Node l key v r) x =
            (try_insert_with_candidate (.Node l key v r) x key).getD (.Node l key v r)
          from rfl]
      cases hw : try_insert_with_candidate (.Node l key v r) x key with
      | some u => exact keys_tiwc_self (.Node l key v r) x key u hw
      | none =>
        rcases tiwc_none_mem (.Node l key v r) x key hbst
          (fun he => Or.inl ((mem_keysList_node x l r key v).mpr (Or.inr (Or.inl he)))) hw
          with hm | hm
        · exact hm
        · exact (mem_keysList_node x l r key v).mpr (Or.inr (Or.inl hm))
  obtain ⟨w, hw⟩ := naive_some_of_mem (insert t x) x hbst' hmem
  simp [member, lookup_eq_naive (insert t x) x hbst', hw]

theorem member_false_of_not_mem (t : Tree T Unit) (y : T) (hbst : BST t)
    (hy : y ∉ keysList t) : member t y = false := by
  cases hn : naive_lookup t y with
  | some w => exact absurd (mem_of_naive_some t y w hn) hy
  | none => simp [member, lookup_eq_naive t y hbst, hn]

theorem insert_insert (t : Tree T Unit) (x : T) :
    insert (insert t x) x = insert t x := by
  cases t with
  | Empty =>
    show insert (singleton x ()) x = singleton x ()
    simp [singleton, insert, try_insert_with_candidate, lt_irrefl]
  | Node l key v r =>
    cases hw : try_insert_with_candidate (.Node l key v r) x key with
    | none =>
      have h1 : insert (.Node l key v r) x = .Node l key v r := by simp [insert, hw]
      rw [h1]
      exact h1
    | some u =>
      have h1 : insert (.Node l key v r) x = u := by simp [insert, hw]
      rw [h1]
      have hnone := tiwc_after_tiwc (.Node l key v r) x key u hw
      have hshape : ∃ l' r', u = Tree.Node l' key () r' := by
        rcases lt_trichotomy x key with hc | hc | hc
        · rw [show try_insert_with_candidate (.Node l key v r) x key =
                (try_insert_with_candidate l x key).map (fun nl => .Node nl key () r) from by
            simp [try_insert_with_candidate, hc]] at hw
          cases hw' : try_insert_with_candidate l x key with
          | none => rw [hw'] at hw; simp at hw
          | some nl =>
            rw [hw'] at hw
            simp at hw
            exact ⟨nl, r, hw.symm⟩
        · simp [try_insert_with_candidate, hc, lt_irrefl] at hw
        · rw [show try_insert_with_candidate (.Node l key v r) x key =
                (try_insert_with_candidate r x key).map (fun nr => .Node l key () nr) from by
            simp [try_insert_with_candidate, hc, asymm hc]] at hw
          cases hw' : try_insert_with_candidate r x key with
          | none => rw [hw'] at hw; simp at hw
          | some nr =>
            rw [hw'] at hw
            simp at hw
            exact ⟨l, nr, hw.symm⟩
      obtain ⟨l', r', hu⟩ := hshape
      rw [hu] at hnone ⊢
      simp [insert, hnone]

theorem keysList_insert_subset (t : Tree T Unit) (x : T) :
    ∀ k ∈ keysList (insert t x), k ∈ keysList t ∨ k = x := by
  intro k hk
  cases t with
  | Empty =>
    simp [insert, singleton, keysList] at hk
    exact Or.inr hk
  | Node l key v r =>
    rw [show insert (.Node l key v r) x =
          (try_insert_with_candidate (.Node l key v r) x key).getD (.Node l key v r)
        from rfl] at hk
    cases hw : try_insert_with_candidate (.Node l key v r) x key with
    | none => rw [hw] at hk; exact Or.inl hk
    | some u =>
      rw [hw] at hk
      exact keysList_tiwc_subset (.Node l key v r) x key u hw k hk

theorem bst_insertAll :
    ∀ (xs : List T) (t : Tree T Unit), BST t → BST (insertAll t xs) := by
  intro xs
  induction xs with
  | nil => intro t h; exact h
  | cons x xs ih => intro t h; exact ih (t.insert x) (bst_insert t x h)

theorem keysList_insertAll_subset :
    ∀ (xs : List T) (t : Tree T Unit), ∀ k ∈ keysList (insertAll t xs),
      k ∈ keysList t ∨ k ∈ xs := by
  intro xs
  induction xs with
  | nil => intro t k hk; exact Or.inl hk
  | cons x xs ih =>
    intro t k hk
    rcases ih (t.insert x) k hk with h | h
    · rcases keysList_insert_subset t x k h with h' | h'
      · exact Or.inl h'
      · exact Or.inr (by simp [h'])
    · exact Or.inr (by simp [h])

end Tree

end TreeLemmas

/-! ### Tree claims -/

/-- C1: on every tree satisfying the BST invariant the candidate-tracking
search behind `lookup` returns exactly the result of the naive
three-way-comparison BST search, `member` mirrors that result, and on an
`Empty` tree `lookup` returns `none` immediately (its `Empty` branch, which
never seeds a candidate). -/
theorem claim_C1_candidate_lookup_refines_naive :
    (∀ (K V : Type) [LinearOrder K] (t : Tree K V) (k : K), Tree.BST t →
      Tree.lookup t k = Tree.naive_lookup t k) ∧
    (∀ (T : Type) [LinearOrder T] (s : Tree T Unit) (x : T), Tree.BST s →
      Tree.member s x = (Tree.naive_lookup s x).isSome) ∧
    (∀ (K V : Type) [LinearOrder K] (k : K),
      Tree.lookup (Tree.Empty : Tree K V) k = none) := by
  refine ⟨?_, ?_, ?_⟩
  · intro K V _ t k h
    exact Tree.lookup_eq_naive t k h
  · intro T _ s x h
    simp [Tree.member, Tree.lookup_eq_naive s x h]
  · intro K V _ k
    rfl

/-- Witness for C1 on the BST built by binding 2, 1, 3. -/
theorem claim_C1_candidate_lookup_refines_naive_witness :
    Tree.BST ((((Tree.empty_map : Tree ℕ ℕ).bind 2 20).bind 1 10).bind 3 30) ∧
    Tree.lookup ((((Tree.empty_map : Tree ℕ ℕ).bind 2 20).bind 1 10).bind 3 30) 3 =
      Tree.naive_lookup ((((Tree.empty_map : Tree ℕ ℕ).bind 2 20).bind 1 10).bind 3 30) 3 :=
  ⟨by decide,
   claim_C1_candidate_lookup_refines_naive.1 ℕ ℕ
     ((((Tree.empty_map : Tree ℕ ℕ).bind 2 20).bind 1 10).bind 3 30) 3 (by decide)⟩

/-- C2: every tree reachable from `empty()`/`empty_map()` by any sequence of
`bind` (Map view) or `insert`/`bind` (Set view) operations satisfies the BST
invariant at every node, recursively. -/
theorem claim_C2_bst_invariant_reachable :
    (∀ (K V : Type) [LinearOrder K] (t : Tree K V), ReachableMap t → Tree.BST t) ∧
    (∀ (T : Type) [LinearOrder T] (s : Tree T Unit), ReachableSet s → Tree.BST s) := by
  constructor
  · intro K V _ t h
    induction h with
    | empty => exact trivial
    | bind t k v _ ih => exact Tree.bst_bind t k v ih
  · intro T _ s h
    induction h with
    | empty => exact trivial
    | insert t x _ ih => exact Tree.bst_insert t x ih
    | bind t k v _ ih => exact Tree.bst_bind t k v ih

/-- Witness for C2 on `empty().insert(3).insert(5)`. -/
theorem claim_C2_bst_invariant_reachable_witness :
    Tree.BST (((Tree.empty : Tree ℕ Unit).insert 3).insert 5) :=
  claim_C2_bst_invariant_reachable.2 ℕ (((Tree.empty : Tree ℕ Unit).insert 3).insert 5)
    (ReachableSet.insert _ 5 (ReachableSet.insert _ 3 ReachableSet.empty))

/-- C4: on a BST `t`, after `m1 = bind t k v1` lookup of `k` gives `v1`; after
`m2 = bind m1 k v2` lookup of `k` on `m2` gives `v2` while on the (unchanged
value) `m1` it still gives `v1`; and every other key looks up the same in `m2`
as in `m1`. -/
theorem claim_C4_map_bind_overwrites {K V : Type} [LinearOrder K]
    (t : Tree K V) (k : K) (v1 v2 : V) (hbst : Tree.BST t) :
    Tree.lookup (t.bind k v1) k = some v1 ∧
    Tree.lookup ((t.bind k v1).bind k v2) k = some v2 ∧
    Tree.lookup (t.bind k v1) k = some v1 ∧
    (∀ q : K, q ≠ k →
      Tree.lookup ((t.bind k v1).bind k v2) q = Tree.lookup (t.bind k v1) q) := by
  have hb1 : Tree.BST (t.bind k v1) := Tree.bst_bind t k v1 hbst
  have hb2 : Tree.BST ((t.bind k v1).bind k v2) := Tree.bst_bind _ k v2 hb1
  have h1 : Tree.lookup (t.bind k v1) k = some v1 := by
    rw [Tree.lookup_eq_naive _ k hb1]
    exact Tree.naive_bind_self t k v1
  refine ⟨h1, ?_, h1, ?_⟩
  · rw [Tree.lookup_eq_naive _ k hb2]
    exact Tree.naive_bind_self _ k v2
  · intro q hq
    rw [Tree.lookup_eq_naive _ q hb2, Tree.lookup_eq_naive _ q hb1]
    exact Tree.naive_bind_other _ k v2 q hq

/-- Witness for C4 with `t = empty_map`, `k = 1`, `v1 = 7`, `v2 = 9`. -/
theorem claim_C4_map_bind_overwrites_witness :
    Tree.lookup ((Tree.empty_map : Tree ℕ ℕ).bind 1 7) 1 = some 7 ∧
    Tree.lookup (((Tree.empty_map : Tree ℕ ℕ).bind 1 7).bind 1 9) 1 = some 9 ∧
    Tree.lookup ((Tree.empty_map : Tree ℕ ℕ).bind 1 7) 1 = some 7 ∧
    (∀ q : ℕ, q ≠ 1 →
      Tree.lookup (((Tree.empty_map : Tree ℕ ℕ).bind 1 7).bind 1 9) q =
        Tree.lookup ((Tree.empty_map : Tree ℕ ℕ).bind 1 7) q) :=
  claim_C4_map_bind_overwrites (Tree.empty_map : Tree ℕ ℕ) 1 7 9 (by decide)

/-- C5: on a BST, a value just inserted is a member; and a value never
inserted into a tree built from `empty()` by inserts is not a member. -/
theorem claim_C5_membership_after_inserts :
    (∀ (T : Type) [LinearOrder T] (t : Tree T Unit) (x : T), Tree.BST t →
      Tree.member (t.insert x) x = true) ∧
    (∀ (T : Type) [LinearOrder T] (xs : List T) (y : T), y ∉ xs →
      Tree.member (insertAll (Tree.empty : Tree T Unit) xs) y = false) := by
  constructor
  · intro T _ t x h
    exact Tree.member_insert_self t x h
  · intro T _ xs y hy
    have hbst := Tree.bst_insertAll xs (Tree.empty : Tree T Unit) trivial
    apply Tree.member_false_of_not_mem _ y hbst
    intro hmem
    rcases Tree.keysList_insertAll_subset xs Tree.empty y hmem with h | h
    · simp [Tree.empty, Tree.keysList] at h
    · exact hy h

/-- Witness for C5: 5 is a member after inserting it, 42 is not a member of
the tree built by inserting 3 then 5. -/
theorem claim_C5_membership_after_inserts_witness :
    Tree.member (((Tree.empty : Tree ℕ Unit).insert 3).insert 5) 5 = true ∧
    Tree.member (insertAll (Tree.empty : Tree ℕ Unit) [3, 5]) 42 = false :=
  ⟨claim_C5_membership_after_inserts.1 ℕ ((Tree.empty : Tree ℕ Unit).insert 3) 5 (by decide),
   claim_C5_membership_after_inserts.2 ℕ [3, 5] 42 (by decide)⟩

/-- C6: inserting a value that is already a member returns the tree itself (a
value-identical cheap copy); `insert` is idempotent for every tree and value;
and on a member the helper signals the no-op by returning `none` rather than a
rebuilt tree. -/
theorem claim_C6_insert_noop_on_member {T : Type} [LinearOrder T]
    (t : Tree T Unit) (x : T) :
    (Tree.member t x = true → t.insert x = t) ∧
    ((t.insert x).insert x = t.insert x) ∧
    (Tree.member t x = true → ∀ l key v r, t = Tree.Node l key v r →
      Tree.try_insert_with_candidate t x key = none) := by
  refine ⟨fun h => Tree.insert_eq_of_member t x h, Tree.insert_insert t x, ?_⟩
  intro h l key v r ht
  subst ht
  exact Tree.tiwc_none_of_lwc_some _ x key v (by simpa [Tree.member, Tree.lookup] using h)

/-- Witness for C6 on the tree containing 3. -/
theorem claim_C6_insert_noop_on_member_witness :
    Tree.member ((Tree.empty : Tree ℕ Unit).insert 3) 3 = true ∧
    ((Tree.empty : Tree ℕ Unit).insert 3).insert 3 = (Tree.empty : Tree ℕ Unit).insert 3 :=
  ⟨by decide,
   (claim_C6_insert_noop_on_member ((Tree.empty : Tree ℕ Unit).insert 3) 3).1 (by decide)⟩

end FDS
